import Mathlib

/-!
Verification development for the accela terminal text editor (src/main.go).

Modelling conventions:
* A Go `string` is a byte sequence, embedded as `List Nat` (each element a byte value).
  Go indexing/slicing on strings is byte-based (`s[a:b]`, `len(s)`), which the model
  renders with `List.take`/`List.drop`/`List.length`.
* Go `[]rune(s)` decodes UTF-8 (invalid bytes become U+FFFD = 65533, one per byte,
  as in Go's rune conversion); `string(rs)` re-encodes.  `utf8Decode`/`utf8EncodeChar`
  model these conversions.
* Go slice indexing panics out of bounds; the model totalizes with `getD`-style
  defaults, and theorems carry in-bounds hypotheses where the Go code would panic.
* External capabilities (the chroma lexer/style engine, tcell, clipboard, file
  system) are either abstracted into function parameters (the tokenizer) or
  irrelevant to the claims.
-/

namespace Accela

/-- A Go string as a sequence of byte values. -/
abbrev GoStr := List Nat

/-- The newline byte. -/
def nl : Nat := 10

/-- The carriage-return byte. -/
def cr : Nat := 13

/-- `strings.Split(s, "\n")`: split a byte string on the newline byte. -/
def splitNl : GoStr → List GoStr
  | [] => [[]]
  | c :: rest =>
    if c = nl then [] :: splitNl rest
    else
      match splitNl rest with
      | [] => [[c]]
      | l :: ls => (c :: l) :: ls

/-- `strings.Join(ls, "\n")`: join byte strings with the newline byte. -/
def joinNl : List GoStr → GoStr
  | [] => []
  | [l] => l
  | l :: ls => l ++ nl :: joinNl ls

/-- `strings.ReplaceAll(s, "\r\n", "\n")`: left-to-right replacement of CRLF by LF. -/
def replaceCRLF : GoStr → GoStr
  | [] => []
  | [c] => [c]
  | c :: d :: rest =>
    if c = cr ∧ d = nl then nl :: replaceCRLF rest
    else c :: replaceCRLF (d :: rest)

/-- Does byte string `s` start with `q`? -/
def startsWith : GoStr → GoStr → Bool
  | _, [] => true
  | [], _ :: _ => false
  | b :: ss, a :: qs => a == b && startsWith ss qs

/-- `strings.Index(s, q)`: byte position of the first occurrence of `q` in `s`
(`none` for Go's -1). -/
def indexOf : GoStr → GoStr → Option Nat
  | s, q =>
    if startsWith s q then some 0
    else
      match s with
      | [] => none
      | _ :: rest => (indexOf rest q).map (· + 1)

/-- A continuation byte of a UTF-8 sequence. -/
def isCont (b : Nat) : Bool := 128 ≤ b && b < 192

/-- Lower bound Go accepts for the second byte of a 3-byte sequence led by `b`. -/
def cont3Lo (b : Nat) : Nat := if b = 224 then 160 else 128

/-- Upper (exclusive) bound Go accepts for the second byte of a 3-byte sequence led by `b`. -/
def cont3Hi (b : Nat) : Nat := if b = 237 then 160 else 192

/-- Lower bound Go accepts for the second byte of a 4-byte sequence led by `b`. -/
def cont4Lo (b : Nat) : Nat := if b = 240 then 144 else 128

/-- Upper (exclusive) bound Go accepts for the second byte of a 4-byte sequence led by `b`. -/
def cont4Hi (b : Nat) : Nat := if b = 244 then 144 else 192

/-- The replacement rune U+FFFD produced by Go for each invalid byte. -/
def runeError : Nat := 65533

/-- Worker for `utf8Decode`.  Each step consumes at least one byte, so fuel equal
to the byte count suffices; the fuel argument only makes the recursion structural. -/
def utf8DecodeAux : Nat → List Nat → List Nat
  | _, [] => []
  | 0, _ :: _ => []
  | fuel + 1, b :: rest =>
    if b < 128 then b :: utf8DecodeAux fuel rest
    else if 194 ≤ b ∧ b ≤ 223 then
      match rest with
      | [] => [runeError]
      | b2 :: rest2 =>
        if isCont b2 then ((b - 192) * 64 + (b2 - 128)) :: utf8DecodeAux fuel rest2
        else runeError :: utf8DecodeAux fuel (b2 :: rest2)
    else if 224 ≤ b ∧ b ≤ 239 then
      match rest with
      | b2 :: b3 :: rest3 =>
        if cont3Lo b ≤ b2 ∧ b2 < cont3Hi b ∧ isCont b3 then
          ((b - 224) * 4096 + (b2 - 128) * 64 + (b3 - 128)) :: utf8DecodeAux fuel rest3
        else runeError :: utf8DecodeAux fuel (b2 :: b3 :: rest3)
      | _ => runeError :: utf8DecodeAux fuel rest
    else if 240 ≤ b ∧ b ≤ 244 then
      match rest with
      | b2 :: b3 :: b4 :: rest4 =>
        if cont4Lo b ≤ b2 ∧ b2 < cont4Hi b ∧ isCont b3 ∧ isCont b4 then
          ((b - 240) * 262144 + (b2 - 128) * 4096 + (b3 - 128) * 64 + (b4 - 128))
            :: utf8DecodeAux fuel rest4
        else runeError :: utf8DecodeAux fuel (b2 :: b3 :: b4 :: rest4)
      | _ => runeError :: utf8DecodeAux fuel rest
    else runeError :: utf8DecodeAux fuel rest

/-- Go `[]rune(s)`: UTF-8 decoding with U+FFFD for each byte of an invalid sequence. -/
def utf8Decode (l : List Nat) : List Nat := utf8DecodeAux l.length l

/-- Go `string(r)` for a single rune: UTF-8 encoding (surrogates and
out-of-range values encode the replacement rune, as in Go). -/
def utf8EncodeChar (c : Nat) : List Nat :=
  if 55296 ≤ c ∧ c < 57344 then [239, 191, 189]
  else if 1114111 < c then [239, 191, 189]
  else if c < 128 then [c]
  else if c < 2048 then [192 + c / 64, 128 + c % 64]
  else if c < 65536 then [224 + c / 4096, 128 + c / 64 % 64, 128 + c % 64]
  else [240 + c / 262144, 128 + c / 4096 % 64, 128 + c / 64 % 64, 128 + c % 64]

/-- Go `string(rs)` for a rune slice. -/
def encodeRunes (rs : List Nat) : GoStr := rs.flatMap utf8EncodeChar

/-- The Selection struct of src/main.go. -/
structure Selection where
  startLine : Nat
  startCol : Nat
  endLine : Nat
  endCol : Nat
  active : Bool
deriving DecidableEq

/-- The TokenInfo struct: a styled span in one line of the highlight cache.
The tcell style is abstracted to a numeric code, 0 meaning tcell.StyleDefault. -/
structure TokenInfo where
  col : Nat
  len : Nat
  style : Nat
deriving DecidableEq

/-- The Buffer struct of src/main.go: line store, cursor, selection, highlight
cache and its dirty range.  The Lexer/Style handles are external capabilities and
appear as parameters of the cache operations; scroll offsets and filename do not
affect any modelled operation. -/
structure Buffer where
  lines : List GoStr
  cursorX : Nat
  cursorY : Nat
  sel : Selection
  tokenCache : List (List TokenInfo)
  dirty : Bool
  dirtyLineStart : Int
  dirtyLineEnd : Int
deriving DecidableEq

/-- An inactive selection, all coordinates zero. -/
def noSel : Selection := ⟨0, 0, 0, 0, false⟩

/-- NewBuffer: one empty line, no dirty range. -/
def newBuffer : Buffer :=
  { lines := [[]], cursorX := 0, cursorY := 0, sel := noSel,
    tokenCache := [], dirty := false, dirtyLineStart := -1, dirtyLineEnd := -1 }

/-- A buffer over the given lines, cursor at the origin (used for concrete states). -/
def mkBuffer (ls : List GoStr) : Buffer :=
  { newBuffer with lines := ls }

/-- `b.Lines[i]` (Go panics out of bounds; theorems carry bounds hypotheses). -/
def lineAt (b : Buffer) (i : Nat) : GoStr := b.lines.getD i []

/-- MarkDirtyLines: grow the dirty range to cover `[s, e]`. -/
def markDirtyLines (b : Buffer) (s e : Nat) : Buffer :=
  let b1 := { b with dirty := true }
  let b2 :=
    if b1.dirtyLineStart < 0 ∨ (s : Int) < b1.dirtyLineStart then
      { b1 with dirtyLineStart := (s : Int) }
    else b1
  if b2.dirtyLineEnd < (e : Int) then { b2 with dirtyLineEnd := (e : Int) } else b2

/-- MarkDirty: mark the cursor line dirty. -/
def markDirty (b : Buffer) : Buffer := markDirtyLines b b.cursorY b.cursorY

/-- The endpoint normalization shared by GetSelectedText, DeleteSelection and
isSelected: swap the endpoints when Start is textually after End.  Returns
`(startLine, startCol, endLine, endCol)` after the swap. -/
def normSel (s : Selection) : Nat × Nat × Nat × Nat :=
  if s.startLine > s.endLine ∨ (s.startLine = s.endLine ∧ s.startCol > s.endCol) then
    (s.endLine, s.endCol, s.startLine, s.startCol)
  else
    (s.startLine, s.startCol, s.endLine, s.endCol)

/-- GetSelectedText: the exact byte substring the selection denotes, multi-line
spans joined with the newline byte, no newline after the final captured line.
Clamping of the columns to the line lengths follows the Go code: the single-line
branch clamps both columns, the multi-line branch guards the first line
(equivalent to `List.drop`) and clamps the last column. -/
def getSelectedText (b : Buffer) : GoStr :=
  if b.sel.active = false then []
  else
    match normSel b.sel with
    | (sl, sc, el, ec) =>
      if sl = el then
        let line := lineAt b sl
        let sc2 := min sc line.length
        let ec2 := min ec line.length
        (line.take ec2).drop sc2
      else
        ((lineAt b sl).drop sc ++ nl ::
          ((b.lines.drop (sl + 1)).take (el - sl - 1)).flatMap (fun l => l ++ [nl])) ++
          (lineAt b el).take (min ec (lineAt b el).length)

/-- DeleteSelection: normalize, clamp both columns, join the text before the low
endpoint with the text after the high endpoint, drop the enclosed lines, move the
cursor to the low endpoint, deactivate the selection, and mark dirty from the
edit line through the new end of the line store. -/
def deleteSelection (b : Buffer) : Buffer :=
  if b.sel.active = false then b
  else
    match normSel b.sel with
    | (sl, sc, el, ec) =>
      let sc2 := min sc (lineAt b sl).length
      let ec2 := min ec (lineAt b el).length
      let newLines :=
        b.lines.take sl ++ ((lineAt b sl).take sc2 ++ (lineAt b el).drop ec2) ::
          b.lines.drop (el + 1)
      let b1 := { b with lines := newLines, cursorX := sc2, cursorY := sl,
                         sel := { b.sel with active := false } }
      markDirtyLines b1 sl (newLines.length - 1)

/-- InsertText: split the text on newline bytes; a single-line insert splices into
the current line at the byte column CursorX and advances CursorX by the byte
length; a multi-line insert splits the current line at the cursor, joins the head
with the first inserted line and the tail onto the last one, and splices the
middle lines in whole. -/
def insertText (b : Buffer) (text : GoStr) : Buffer :=
  let ls := splitNl text
  let startLine := b.cursorY
  if ls.length = 1 then
    let line := lineAt b b.cursorY
    let b1 := { b with lines := b.lines.set b.cursorY
                         (line.take b.cursorX ++ text ++ line.drop b.cursorX),
                       cursorX := b.cursorX + text.length }
    markDirty b1
  else
    let currentLine := lineAt b b.cursorY
    let beforeCursor := currentLine.take b.cursorX
    let afterCursor := currentLine.drop b.cursorX
    let lines0 := b.lines.set b.cursorY (beforeCursor ++ ls.headD [])
    let newLines :=
      lines0.take (b.cursorY + 1) ++ (ls.drop 1).dropLast ++
        (ls.getLastD [] ++ afterCursor) :: lines0.drop (b.cursorY + 1)
    let b1 := { b with lines := newLines,
                       cursorY := b.cursorY + ls.length - 1,
                       cursorX := (ls.getLastD []).length }
    markDirtyLines b1 startLine (newLines.length - 1)

/-- The pure content of LoadFile: convert CRLF to LF, split on LF, and fall back
to one empty line if the split were empty. -/
def loadLines (content : GoStr) : List GoStr :=
  let ls := splitNl (replaceCRLF content)
  if ls.length = 0 then [[]] else ls

/-- The content SaveFile writes: lines joined with LF, nothing appended. -/
def saveContent (ls : List GoStr) : GoStr := joinNl ls

/-- The KeyRune branch of HandleKey: delete an active selection, then splice the
typed rune into the current line at the rune column CursorX (clamped to the rune
count), advancing CursorX by one; the line is rebuilt by re-encoding.  (The n/N
branches that cycle through search matches are editor-level navigation, not a
buffer mutation, and are not modelled.) -/
def handleRune (b0 : Buffer) (c : Nat) : Buffer :=
  let b := if b0.sel.active then deleteSelection b0 else b0
  let runes := utf8Decode (lineAt b b.cursorY)
  let x := min b.cursorX runes.length
  let b1 := { b with lines := b.lines.set b.cursorY
                       (encodeRunes (runes.take x) ++ utf8EncodeChar c ++
                         encodeRunes (runes.drop x)),
                     cursorX := x + 1 }
  markDirty b1

/-- The KeyEnter branch of HandleKey: delete an active selection, split the
current line at the rune column (clamped), insert the tail as a new line below,
and move the cursor to column 0 of that line. -/
def handleEnter (b0 : Buffer) : Buffer :=
  let b := if b0.sel.active then deleteSelection b0 else b0
  let runes := utf8Decode (lineAt b b.cursorY)
  let x := min b.cursorX runes.length
  let lines1 := b.lines.set b.cursorY (encodeRunes (runes.take x))
  let lines2 := lines1.take (b.cursorY + 1) ++ encodeRunes (runes.drop x) ::
    lines1.drop (b.cursorY + 1)
  let b1 := markDirtyLines { b with lines := lines2, cursorX := x } b.cursorY
    (lines2.length - 1)
  { b1 with cursorY := b.cursorY + 1, cursorX := 0 }

/-- The KeyBackspace branch of HandleKey: delete an active selection; otherwise
remove the rune left of the cursor, or, at column 0 of a non-first line, merge the
current line onto the previous line. -/
def handleBackspace (b : Buffer) : Buffer :=
  if b.sel.active then deleteSelection b
  else if 0 < b.cursorX then
    let runes := utf8Decode (lineAt b b.cursorY)
    let x := min b.cursorX runes.length
    if 0 < x then
      let b1 := { b with lines := b.lines.set b.cursorY
                           (encodeRunes (runes.take (x - 1)) ++ encodeRunes (runes.drop x)),
                         cursorX := x - 1 }
      markDirty b1
    else { b with cursorX := x }
  else if 0 < b.cursorY then
    let prevRunes := utf8Decode (lineAt b (b.cursorY - 1))
    let lines1 := b.lines.set (b.cursorY - 1) (lineAt b (b.cursorY - 1) ++ lineAt b b.cursorY)
    let lines2 := lines1.eraseIdx b.cursorY
    let b1 := { b with cursorX := prevRunes.length, lines := lines2,
                       cursorY := b.cursorY - 1 }
    markDirtyLines b1 b1.cursorY (lines2.length - 1)
  else b

/-- The KeyDelete branch of HandleKey: delete an active selection; otherwise
remove the rune under the cursor, or, at end of a non-last line, merge the next
line onto the current one.  The cursor does not move. -/
def handleDelete (b : Buffer) : Buffer :=
  if b.sel.active then deleteSelection b
  else
    let runes := utf8Decode (lineAt b b.cursorY)
    if b.cursorX < runes.length then
      markDirty { b with lines := b.lines.set b.cursorY
                           (encodeRunes (runes.take b.cursorX) ++
                             encodeRunes (runes.drop (b.cursorX + 1))) }
    else if b.cursorY < b.lines.length - 1 then
      let lines1 := b.lines.set b.cursorY (lineAt b b.cursorY ++ lineAt b (b.cursorY + 1))
      let lines2 := lines1.eraseIdx (b.cursorY + 1)
      markDirtyLines { b with lines := lines2 } b.cursorY (lines2.length - 1)
    else b

/-- isWordChar: letters, digits, or the underscore.  The Go code consults the
external unicode tables; the model restricts the letter and digit classes to
their ASCII fragments, which is all the claims exercise. -/
def isWordCharB (c : Nat) : Bool :=
  (65 ≤ c && c ≤ 90) || (97 ≤ c && c ≤ 122) || (48 ≤ c && c ≤ 57) || c == 95

/-- One Go skipping loop `for x < len(runes) && p(runes[x]) { x++ }`, walked on the
suffix of the rune list starting at `x`. -/
def skipRunFrom (p : Nat → Bool) : List Nat → Nat → Nat
  | [], x => x
  | c :: rest, x => if p c then skipRunFrom p rest (x + 1) else x

/-- MoveWordRight: at end of line move to column 0 of the next line (if any);
otherwise skip the run of word runes at the cursor, then the following run of
non-word runes. -/
def moveWordRight (b : Buffer) : Buffer :=
  let runes := utf8Decode (lineAt b b.cursorY)
  if runes.length ≤ b.cursorX then
    if b.cursorY < b.lines.length - 1 then
      { b with cursorY := b.cursorY + 1, cursorX := 0 }
    else b
  else
    let x1 := skipRunFrom isWordCharB (runes.drop b.cursorX) b.cursorX
    let x2 := skipRunFrom (fun c => !isWordCharB c) (runes.drop x1) x1
    { b with cursorX := x2 }

/-- The accumulation loop of charToVisualCol: walk `n` runes (or fewer when the
line ends first), a tab advancing to the next multiple of 4, anything else by 1. -/
def visAux : List Nat → Nat → Nat → Nat
  | _, 0, v => v
  | [], _ + 1, v => v
  | c :: rest, n + 1, v =>
    visAux rest n (if c = 9 then v + (4 - v % 4) else v + 1)

/-- charToVisualCol: visual (tab-expanded) column of character column `charCol`
on line `line`; an out-of-range line index returns `charCol` unchanged. -/
def charToVisualCol (b : Buffer) (line charCol : Nat) : Nat :=
  if b.lines.length ≤ line then charCol
  else visAux (utf8Decode (lineAt b line)) charCol 0

/-- A search match: line, byte column, byte length. -/
structure SearchMatch where
  line : Nat
  col : Nat
  len : Nat
deriving DecidableEq

/-- The per-line loop of ExecuteSearch: find the next occurrence at or after the
scan point, record its absolute column, and resume one byte past the start of the
match.  `suffix` is `line[base:]`; fuel bounds the iteration count (each found
match advances the scan point, so `line.length + 1` suffices). -/
def searchLineAux (q : GoStr) : Nat → GoStr → Nat → List Nat
  | 0, _, _ => []
  | fuel + 1, suffix, base =>
    match indexOf suffix q with
    | none => []
    | some i => (base + i) :: searchLineAux q fuel (suffix.drop (i + 1)) (base + i + 1)

/-- All match columns of `q` in `line`, in increasing order, overlap-permissive. -/
def searchLine (q line : GoStr) : List Nat := searchLineAux q (line.length + 1) line 0

/-- ExecuteSearch: an empty query performs no search; otherwise scan every line in
document order collecting matches of byte length `len(query)`. -/
def executeSearch (lines : List GoStr) (q : GoStr) : List SearchMatch :=
  if q = [] then []
  else lines.enum.flatMap fun p =>
    (searchLine q p.2).map fun c => ⟨p.1, c, q.length⟩

/-- The fixed context margin of UpdateTokenCacheRange. -/
def contextLines : Nat := 50

/-- A token stream as delivered by the external chroma lexer: each token's byte
string paired with the numeric code of the style resolved for its type. -/
abbrev TokenStream := List (GoStr × Nat)

/-- An external tokenizer (the composition of `Lexer.Tokenise` and the style
lookup).  The chroma capability yields tokens whose values concatenate back to
the submitted text; theorems that need this state it as a hypothesis. -/
abbrev Tokenizer := GoStr → TokenStream

/-- Replace index `i` of a cache (no-op out of range, like the guarded Go writes). -/
def modifyAt (cache : List (List TokenInfo)) (i : Nat) (f : List TokenInfo → List TokenInfo) :
    List (List TokenInfo) :=
  cache.set i (f (cache.getD i []))

/-- The cache-resize step: `make` a cache of the line count and copy the old
entries over (missing entries become empty span lists). -/
def resizeCache (cache : List (List TokenInfo)) (n : Nat) : List (List TokenInfo) :=
  cache.take n ++ List.replicate (n - cache.length) []

/-- The clearing loop: empty the span list of every line in `[s, e]` that exists. -/
def clearRange (cache : List (List TokenInfo)) (s e : Nat) : List (List TokenInfo) :=
  cache.mapIdx fun i l => if s ≤ i ∧ i ≤ e then [] else l

/-- The inner loop over the newline-split parts of one token's value: the first
part continues on the current line and column, each later part starts a new line
at column 0; non-empty parts on lines that exist append a span. -/
def applyParts (style : Nat) :
    List GoStr → List (List TokenInfo) × Nat × Nat → List (List TokenInfo) × Nat × Nat
  | [], st => st
  | part :: parts, (cache, lineNum, col) =>
    let cache1 :=
      if lineNum < cache.length ∧ part ≠ [] then
        modifyAt cache lineNum (fun spans => spans ++ [⟨col, part.length, style⟩])
      else cache
    match parts with
    | [] => (cache1, lineNum, col + part.length)
    | _ :: _ => applyParts style parts (cache1, lineNum + 1, 0)

/-- The outer loop of UpdateTokenCacheRange over the token stream. -/
def applyTokens : TokenStream → List (List TokenInfo) × Nat × Nat →
    List (List TokenInfo) × Nat × Nat
  | [], st => st
  | (value, style) :: ts, st => applyTokens ts (applyParts style (splitNl value) st)

/-- UpdateTokenCacheRange: widen `[startLine, endLine]` by the 50-line context
margin clamped to the document, resize the cache to the line count if needed,
clear the widened range, tokenize only the widened range's lines joined with
newlines, and walk the token stream attributing spans to absolute lines.
(The Go early returns for a nil lexer/style and for a tokenizer error are not
modelled: the tokenizer parameter is total and always present.) -/
def updateTokenCacheRange (tok : Tokenizer) (lines : List GoStr)
    (cache : List (List TokenInfo)) (startLine endLine : Nat) : List (List TokenInfo) :=
  let s := startLine - contextLines
  let e := min (lines.length - 1) (endLine + contextLines)
  let cache1 := if cache.length ≠ lines.length then resizeCache cache lines.length else cache
  let cache2 := clearRange cache1 s e
  let content := joinNl ((lines.drop s).take (e + 1 - s))
  (applyTokens (tok content) (cache2, s, 0)).1

/-- GetStyleAt: the style of the first cached span of `line` containing `col`,
or the default style 0 when none does or the line has no cache entry. -/
def getStyleAt (cache : List (List TokenInfo)) (line col : Nat) : Nat :=
  if cache.length ≤ line then 0
  else
    match (cache.getD line []).find? (fun t => t.col ≤ col && col < t.col + t.len) with
    | some t => t.style
    | none => 0

/-- RefreshIfDirty: one batched re-tokenization of the pending dirty range, then
clear it; a no-op when nothing is dirty. -/
def refreshIfDirty (tok : Tokenizer) (b : Buffer) : Buffer :=
  if b.dirty ∧ 0 ≤ b.dirtyLineStart then
    { b with tokenCache := updateTokenCacheRange tok b.lines b.tokenCache
               b.dirtyLineStart.toNat b.dirtyLineEnd.toNat,
             dirty := false, dirtyLineStart := -1, dirtyLineEnd := -1 }
  else b

/-- The rune-based reference splice the specification describes for `insertText`:
text goes in after the c-th rune of the line. -/
def runeSplice (line : GoStr) (c : Nat) (text : GoStr) : GoStr :=
  encodeRunes ((utf8Decode line).take c) ++ text ++ encodeRunes ((utf8Decode line).drop c)

/-- The rune column corresponding to byte column `byteCol` of `line`. -/
def runeColOf (line : GoStr) (byteCol : Nat) : Nat := (utf8Decode (line.take byteCol)).length

/-- The word-motion column the specification describes for `moveWordRight`:
first skip the run of non-word runes at the cursor, then the following run of
word runes. -/
def specWordRightCol (rs : List Nat) (x : Nat) : Nat :=
  let x1 := skipRunFrom (fun c => !isWordCharB c) (rs.drop x) x
  skipRunFrom isWordCharB (rs.drop x1) x1

/-- Does `q` occur (as a literal byte substring) at column `c` of `line`? -/
def occursAt (line q : GoStr) (c : Nat) : Bool := startsWith (line.drop c) q

/-- Is every carriage return of the byte string immediately followed by a newline? -/
def crlfOnly : GoStr → Bool
  | [] => true
  | [c] => c ≠ cr
  | c :: d :: rest => if c = cr then d = nl && crlfOnly rest else crlfOnly (d :: rest)

/-! ### Basic lemmas about the byte-string operations -/

lemma markDirtyLines_lines (b : Buffer) (s e : Nat) :
    (markDirtyLines b s e).lines = b.lines := by
  unfold markDirtyLines
  dsimp only
  split <;> split <;> rfl

lemma markDirtyLines_cursorX (b : Buffer) (s e : Nat) :
    (markDirtyLines b s e).cursorX = b.cursorX := by
  unfold markDirtyLines
  dsimp only
  split <;> split <;> rfl

lemma markDirtyLines_cursorY (b : Buffer) (s e : Nat) :
    (markDirtyLines b s e).cursorY = b.cursorY := by
  unfold markDirtyLines
  dsimp only
  split <;> split <;> rfl

lemma markDirty_lines (b : Buffer) : (markDirty b).lines = b.lines :=
  markDirtyLines_lines b _ _

lemma splitNl_ne_nil (s : GoStr) : splitNl s ≠ [] := by
  induction s with
  | nil => simp [splitNl]
  | cons c rest ih =>
    unfold splitNl
    split
    · simp
    · match h : splitNl rest with
      | [] => simp
      | l :: ls => simp

lemma splitNl_no_nl {s : GoStr} (h : nl ∉ s) : splitNl s = [s] := by
  induction s with
  | nil => rfl
  | cons c rest ih =>
    have hc : c ≠ nl := fun hc => h (hc ▸ List.mem_cons_self c rest)
    have hrest : nl ∉ rest := fun hr => h (List.mem_cons_of_mem c hr)
    unfold splitNl
    rw [if_neg hc, ih hrest]

lemma splitNl_append_nl {a : GoStr} (rest : GoStr) (h : nl ∉ a) :
    splitNl (a ++ nl :: rest) = a :: splitNl rest := by
  induction a with
  | nil => simp [splitNl]
  | cons c t ih =>
    have hc : c ≠ nl := fun hc => h (hc ▸ List.mem_cons_self c t)
    have ht : nl ∉ t := fun hr => h (List.mem_cons_of_mem c hr)
    rw [List.cons_append]
    simp only [splitNl]
    rw [if_neg hc, ih ht]

lemma joinNl_cons {l : GoStr} {ls : List GoStr} (h : ls ≠ []) :
    joinNl (l :: ls) = l ++ nl :: joinNl ls := by
  match ls with
  | [] => exact absurd rfl h
  | a :: as => rfl

lemma splitNl_joinNl {ls : List GoStr} (hne : ls ≠ []) (h : ∀ l ∈ ls, nl ∉ l) :
    splitNl (joinNl ls) = ls := by
  induction ls with
  | nil => exact absurd rfl hne
  | cons l rest ih =>
    match rest with
    | [] => exact splitNl_no_nl (h l (List.mem_cons_self l []))
    | a :: as =>
      rw [joinNl_cons (by simp), splitNl_append_nl _ (h l (List.mem_cons_self l _)),
        ih (by simp) (fun x hx => h x (List.mem_cons_of_mem l hx))]

lemma mem_of_mem_splitNl {s : GoStr} {l : GoStr} {a : Nat}
    (hl : l ∈ splitNl s) (ha : a ∈ l) : a ∈ s := by
  induction s generalizing l with
  | nil =>
    simp [splitNl] at hl
    subst hl
    exact absurd ha (List.not_mem_nil a)
  | cons c rest ih =>
    unfold splitNl at hl
    by_cases hc : c = nl
    · rw [if_pos hc] at hl
      rcases List.mem_cons.1 hl with h1 | h2
      · subst h1; exact absurd ha (List.not_mem_nil a)
      · exact List.mem_cons_of_mem c (ih h2 ha)
    · rw [if_neg hc] at hl
      match hs : splitNl rest with
      | [] => exact absurd hs (splitNl_ne_nil rest)
      | m :: ms =>
        rw [hs] at hl
        rcases List.mem_cons.1 hl with h1 | h2
        · subst h1
          rcases List.mem_cons.1 ha with h3 | h4
          · exact h3 ▸ List.mem_cons_self c rest
          · exact List.mem_cons_of_mem c (ih (hs ▸ List.mem_cons_self m ms) h4)
        · exact List.mem_cons_of_mem c (ih (hs ▸ List.mem_cons_of_mem m h2) ha)

lemma skipRunFrom_eq (p : Nat → Bool) (l : List Nat) (x : Nat) :
    skipRunFrom p l x = x + (l.takeWhile p).length := by
  induction l generalizing x with
  | nil => simp [skipRunFrom]
  | cons c rest ih =>
    by_cases hc : p c
    · simp [skipRunFrom, List.takeWhile_cons, hc, ih, Nat.add_comm, Nat.add_assoc,
        Nat.add_left_comm]
    · simp [skipRunFrom, List.takeWhile_cons, hc]

lemma visAux_nil (n v : Nat) : visAux [] n v = v := by cases n <;> rfl

lemma visAux_zero (l : List Nat) (v : Nat) : visAux l 0 v = v := by cases l <;> rfl

lemma visAux_step_le (c v : Nat) : v + 1 ≤ (if c = 9 then v + (4 - v % 4) else v + 1) := by
  split
  · have : v % 4 < 4 := Nat.mod_lt v (by omega)
    omega
  · exact Nat.le_refl _

lemma visAux_le_succ (l : List Nat) (n v : Nat) : visAux l n v ≤ visAux l (n + 1) v := by
  induction l generalizing n v with
  | nil => rw [visAux_nil, visAux_nil]
  | cons c rest ih =>
    cases n with
    | zero =>
      rw [visAux_zero]
      show v ≤ visAux rest 0 _
      rw [visAux_zero]
      exact Nat.le_trans (Nat.le_succ v) (visAux_step_le c v)
    | succ n => exact ih n _

lemma visAux_mono (l : List Nat) {n m : Nat} (h : n ≤ m) (v : Nat) :
    visAux l n v ≤ visAux l m v := by
  induction m with
  | zero => cases Nat.le_zero.1 h; exact Nat.le_refl _
  | succ m ih =>
    rcases Nat.lt_or_ge n (m + 1) with hlt | hge
    · exact Nat.le_trans (ih (Nat.lt_succ_iff.1 hlt)) (visAux_le_succ l m v)
    · cases Nat.le_antisymm h hge; exact Nat.le_refl _

lemma visAux_no_tab {l : List Nat} (h9 : 9 ∉ l) {n : Nat} (hn : n ≤ l.length) (v : Nat) :
    visAux l n v = v + n := by
  induction l generalizing n v with
  | nil =>
    cases Nat.le_zero.1 hn
    rw [visAux_nil]
    omega
  | cons c rest ih =>
    cases n with
    | zero => rw [visAux_zero]; omega
    | succ n =>
      have hc : c ≠ 9 := fun hc => h9 (hc ▸ List.mem_cons_self c rest)
      have hrest : 9 ∉ rest := fun hr => h9 (List.mem_cons_of_mem c hr)
      show visAux rest n (if c = 9 then _ else v + 1) = v + (n + 1)
      rw [if_neg hc, ih hrest (Nat.succ_le_succ_iff.1 hn)]
      omega

/-! ### Claim theorems -/

/-- C10: with an inactive selection, GetSelectedText returns the empty string and
DeleteSelection leaves the whole buffer (lines, cursor, dirty range) unchanged. -/
theorem c10_inactive_selection_noop (b : Buffer) (h : b.sel.active = false) :
    getSelectedText b = [] ∧ deleteSelection b = b := by
  constructor
  · unfold getSelectedText
    rw [if_pos h]
  · unfold deleteSelection
    rw [if_pos h]

/-- Witness for C10 at a concrete inactive buffer. -/
theorem c10_inactive_selection_noop_witness :
    (mkBuffer [[97, 98]]).sel.active = false ∧
      getSelectedText (mkBuffer [[97, 98]]) = [] ∧
      deleteSelection (mkBuffer [[97, 98]]) = mkBuffer [[97, 98]] :=
  ⟨by decide, c10_inactive_selection_noop (mkBuffer [[97, 98]]) (by decide)⟩

/-- C7 counterexample: the claim asserts charToVisualCol equals charCol on
tab-free lines for EVERY charCol, but beyond the line length the Go loop stops at
the line end: on the tab-free line consisting of the single byte 97, charCol 2
maps to visual column 1, not 2. -/
theorem c7_counterexample :
    9 ∉ utf8Decode (lineAt (mkBuffer [[97]]) 0) ∧
      charToVisualCol (mkBuffer [[97]]) 0 2 = 1 ∧ (1 : Nat) ≠ 2 := by decide

/-- C7 amended: for every fixed line, charToVisualCol is monotonically
non-decreasing in charCol, and on a line with no tab runes it equals charCol for
every charCol that does not exceed the line's rune count. -/
theorem c7_charToVisualCol_monotone_id (b : Buffer) (line c1 c2 : Nat) (hmono : c1 ≤ c2) :
    charToVisualCol b line c1 ≤ charToVisualCol b line c2 ∧
      (9 ∉ utf8Decode (lineAt b line) → c1 ≤ (utf8Decode (lineAt b line)).length →
        charToVisualCol b line c1 = c1) := by
  unfold charToVisualCol
  by_cases hline : b.lines.length ≤ line
  · rw [if_pos hline, if_pos hline]
    exact ⟨hmono, fun _ _ => rfl⟩
  · rw [if_neg hline, if_neg hline]
    refine ⟨visAux_mono _ hmono 0, fun h9 hlen => ?_⟩
    rw [visAux_no_tab h9 hlen 0]
    omega

/-- Witness for C7 on the line with bytes 104 105 9 120 ("hi", tab, "x"). -/
theorem c7_charToVisualCol_monotone_id_witness :
    ((3 : Nat) ≤ 4 ∧
      charToVisualCol (mkBuffer [[104, 105, 9, 120]]) 0 3 ≤
        charToVisualCol (mkBuffer [[104, 105, 9, 120]]) 0 4) ∧
      ((2 : Nat) ≤ 3 ∧ 9 ∉ utf8Decode (lineAt (mkBuffer [[97, 98, 99]]) 0) ∧
        charToVisualCol (mkBuffer [[97, 98, 99]]) 0 2 = 2) :=
  ⟨⟨by decide, (c7_charToVisualCol_monotone_id (mkBuffer [[104, 105, 9, 120]]) 0 3 4
      (by decide)).1⟩,
    ⟨by decide, by decide,
      (c7_charToVisualCol_monotone_id (mkBuffer [[97, 98, 99]]) 0 2 2 (by decide)).2
        (by decide) (by decide)⟩⟩

/-- C6 counterexample: on the line "ab cd" with the cursor at column 0 (a word
rune), MoveWordRight lands at column 3 (it skips the word run first, then the
non-word run), while the claimed order (non-word run first, then word run) lands
at column 2; the two disagree. -/
theorem c6_counterexample :
    (moveWordRight (mkBuffer [[97, 98, 32, 99, 100]])).cursorX = 3 ∧
      specWordRightCol (utf8Decode [97, 98, 32, 99, 100]) 0 = 2 ∧
      (moveWordRight (mkBuffer [[97, 98, 32, 99, 100]])).cursorX ≠
        specWordRightCol (utf8Decode [97, 98, 32, 99, 100]) 0 := by decide

/-- C6 amended: MoveWordRight, from a cursor not at end-of-line, first skips the
run of word runes at the cursor (possibly empty), then the following run of
non-word runes; at end-of-line of a non-last line it moves to column 0 of the
next line without consuming a word; at end-of-line of the last line it is a
no-op. -/
theorem c6_moveWordRight_characterization (b : Buffer) :
    ((b.cursorX < (utf8Decode (lineAt b b.cursorY)).length →
      moveWordRight b = { b with cursorX := b.cursorX +
        ((((utf8Decode (lineAt b b.cursorY)).drop b.cursorX).takeWhile isWordCharB).length +
          (((utf8Decode (lineAt b b.cursorY)).drop (b.cursorX +
              (((utf8Decode (lineAt b b.cursorY)).drop b.cursorX).takeWhile
                isWordCharB).length)).takeWhile (fun c => !isWordCharB c)).length) }) ∧
    ((utf8Decode (lineAt b b.cursorY)).length ≤ b.cursorX →
      b.cursorY + 1 < b.lines.length →
      moveWordRight b = { b with cursorY := b.cursorY + 1, cursorX := 0 }) ∧
    ((utf8Decode (lineAt b b.cursorY)).length ≤ b.cursorX →
      b.lines.length ≤ b.cursorY + 1 → moveWordRight b = b)) := by
  refine ⟨fun hlt => ?_, fun hge hnext => ?_, fun hge hlast => ?_⟩
  · unfold moveWordRight
    rw [if_neg (by omega)]
    simp only [skipRunFrom_eq, Nat.add_assoc]
  · unfold moveWordRight
    rw [if_pos hge, if_pos (by omega)]
  · unfold moveWordRight
    rw [if_pos hge, if_neg (by omega)]

/-- Witness for C6 on "ab cd": from column 0 the cursor lands on column 3, and on
a one-line buffer the end-of-line case is a no-op. -/
theorem c6_moveWordRight_characterization_witness :
    moveWordRight (mkBuffer [[97, 98, 32, 99, 100]]) =
      { mkBuffer [[97, 98, 32, 99, 100]] with cursorX := 0 + (2 + 1) } :=
  (c6_moveWordRight_characterization (mkBuffer [[97, 98, 32, 99, 100]])).1 (by decide)

/-- C2: the code is byte-based where the specification requires rune positions.
InsertText splices at a byte offset: with the line holding the two UTF-8 bytes of
the rune 233 and CursorX = 1 (the rune column after typing that rune), inserting
byte 120 splits the encoding, producing bytes 195 120 169 instead of the
rune-based reference splice 195 169 120.  ExecuteSearch likewise reports byte
columns: searching byte 120 in the line 195 169 120 reports column 2, whose rune
column is 1. -/
theorem c2_byte_rune_mismatch :
    (insertText { mkBuffer [[195, 169]] with cursorX := 1 } [120]).lines =
        [[195, 120, 169]] ∧
      runeSplice [195, 169] 1 [120] = [195, 169, 120] ∧
      ([195, 120, 169] : GoStr) ≠ [195, 169, 120] ∧
      (executeSearch [[195, 169, 120]] [120]).map (fun m => m.col) = [2] ∧
      runeColOf [195, 169, 120] 2 = 1 ∧ (1 : Nat) ≠ 2 := by decide

lemma replaceCRLF_no_cr {s : GoStr} (h : crlfOnly s = true) : cr ∉ replaceCRLF s := by
  induction s using replaceCRLF.induct with
  | case1 => simp [replaceCRLF]
  | case2 c =>
    simp only [crlfOnly, decide_eq_true_eq] at h
    simp only [replaceCRLF, List.mem_singleton]
    exact fun hc => h hc.symm
  | case3 c d rest hcd ih =>
    have hrest : crlfOnly rest = true := by
      obtain ⟨hc, hd⟩ := hcd
      subst hc hd
      simpa [crlfOnly] using h
    simp only [replaceCRLF, if_pos hcd]
    intro hmem
    rcases List.mem_cons.1 hmem with h1 | h2
    · exact absurd h1 (by decide)
    · exact ih hrest h2
  | case4 c d rest hcd ih =>
    by_cases hc : c = cr
    · subst hc
      have hd : d ≠ nl := fun hd => hcd ⟨rfl, hd⟩
      simp [crlfOnly, hd] at h
    · have hstep : crlfOnly (d :: rest) = true := by simpa [crlfOnly, hc] using h
      simp only [replaceCRLF, if_neg hcd]
      intro hmem
      rcases List.mem_cons.1 hmem with h1 | h2
      · exact hc h1.symm
      · exact ih hstep h2

lemma replaceCRLF_id {s : GoStr} (h : cr ∉ s) : replaceCRLF s = s := by
  induction s using replaceCRLF.induct with
  | case1 => rfl
  | case2 c => rfl
  | case3 c d rest hcd ih =>
    exact absurd (hcd.1 ▸ List.mem_cons_self c (d :: rest)) h
  | case4 c d rest hcd ih =>
    simp only [replaceCRLF, if_neg hcd]
    rw [ih (fun hm => h (List.mem_cons_of_mem c hm))]

lemma mem_joinNl {a : Nat} {ls : List GoStr} (h : a ∈ joinNl ls) :
    a = nl ∨ ∃ l ∈ ls, a ∈ l := by
  induction ls using joinNl.induct with
  | case1 => exact absurd h (List.not_mem_nil a)
  | case2 l => exact Or.inr ⟨l, List.mem_cons_self l [], h⟩
  | case3 l l2 hne ih =>
    rw [joinNl_cons hne] at h
    rcases List.mem_append.1 h with h1 | h2
    · exact Or.inr ⟨l, List.mem_cons_self l _, h1⟩
    · rcases List.mem_cons.1 h2 with h3 | h4
      · exact Or.inl h3
      · rcases ih h4 with h5 | ⟨m, hm, ham⟩
        · exact Or.inl h5
        · exact Or.inr ⟨m, List.mem_cons_of_mem l hm, ham⟩

/-- C9 counterexample: the claim says every carriage return is stripped on load,
but LoadFile only rewrites the two-byte sequence CR LF; a lone CR (byte 13)
survives into the line store. -/
theorem c9_counterexample :
    loadLines [97, 13, 98] = [[97, 13, 98]] ∧ cr ∈ ([97, 13, 98] : GoStr) := by decide

/-- C9 amended: on load every CR LF pair is collapsed to LF, so when every
carriage return of the file is part of a CR LF pair no loaded line contains one
(a lone CR is preserved); on save the lines are joined with LF and nothing is
appended, so saving and reloading newline-free, CR-free lines is the identity. -/
theorem c9_load_strips_crlf_save_joins (content : GoStr) (ls : List GoStr)
    (hcontent : crlfOnly content = true) (hne : ls ≠ [])
    (hls : ∀ l ∈ ls, nl ∉ l ∧ cr ∉ l) :
    (∀ l ∈ loadLines content, cr ∉ l) ∧ loadLines (saveContent ls) = ls := by
  constructor
  · intro l hl hcr
    unfold loadLines at hl
    rw [if_neg (by
      intro h0
      exact splitNl_ne_nil (replaceCRLF content) (List.length_eq_zero.1 h0))] at hl
    exact replaceCRLF_no_cr hcontent (mem_of_mem_splitNl hl hcr)
  · have hcr : cr ∉ joinNl ls := by
      intro hm
      rcases mem_joinNl hm with h1 | ⟨l, hl, hal⟩
      · exact absurd h1 (by decide)
      · exact (hls l hl).2 hal
    unfold loadLines saveContent
    rw [replaceCRLF_id hcr, splitNl_joinNl hne (fun l hl => (hls l hl).1),
      if_neg (by simpa using hne)]

/-- Witness for C9: the file bytes 97 13 10 98 load without any CR, and the
one-line store holding byte 97 survives a save/load round trip. -/
theorem c9_load_strips_crlf_save_joins_witness :
    cr ∉ ([97] : GoStr) ∧ loadLines (saveContent [[97]]) = [[97]] :=
  ⟨(c9_load_strips_crlf_save_joins [97, 13, 10, 98] [[97]] (by decide) (by decide)
      (by decide)).1 [97] (by decide),
    (c9_load_strips_crlf_save_joins [97, 13, 10, 98] [[97]] (by decide) (by decide)
      (by decide)).2⟩

lemma eraseIdx_length_pos {α : Type} {l : List α} {i : Nat} (h : 1 ≤ l.length)
    (hi : 1 ≤ i) : 1 ≤ (l.eraseIdx i).length := by
  match l, i with
  | a :: t, j + 1 =>
    show 1 ≤ (a :: t.eraseIdx j).length
    simp

lemma deleteSelection_length {b : Buffer} (h : 1 ≤ b.lines.length) :
    1 ≤ (deleteSelection b).lines.length := by
  unfold deleteSelection
  split
  · exact h
  · match hn : normSel b.sel with
    | (sl, sc, el, ec) =>
      rw [markDirtyLines_lines]
      simp only [List.length_append, List.length_cons, List.length_take, List.length_drop]
      omega

lemma preDelete_length {b : Buffer} (h : 1 ≤ b.lines.length) :
    1 ≤ (if b.sel.active then deleteSelection b else b).lines.length := by
  split
  · exact deleteSelection_length h
  · exact h

lemma insertText_length {b : Buffer} (h : 1 ≤ b.lines.length) (t : GoStr) :
    1 ≤ (insertText b t).lines.length := by
  unfold insertText
  dsimp only
  split
  · rw [markDirty_lines]
    simpa using h
  · rw [markDirtyLines_lines]
    simp only [List.length_append, List.length_cons, List.length_take, List.length_drop,
      List.length_set]
    omega

/-- C8: the line store always holds at least one line: after buffer creation,
after a file load, and after each mutation operation (character insert, newline,
backspace including the line merge, forward delete including the line merge,
selection delete, and text insert). -/
theorem c8_line_store_never_empty :
    1 ≤ newBuffer.lines.length ∧
      (∀ content : GoStr, 1 ≤ (loadLines content).length) ∧
      (∀ b : Buffer, 1 ≤ b.lines.length →
        (∀ c, 1 ≤ (handleRune b c).lines.length) ∧
          1 ≤ (handleEnter b).lines.length ∧
          1 ≤ (handleBackspace b).lines.length ∧
          1 ≤ (handleDelete b).lines.length ∧
          1 ≤ (deleteSelection b).lines.length ∧
          (∀ t, 1 ≤ (insertText b t).lines.length)) := by
  refine ⟨by decide, fun content => ?_, fun b h => ?_⟩
  · unfold loadLines
    dsimp only
    split
    · decide
    · match hs : splitNl (replaceCRLF content) with
      | [] => exact absurd hs (splitNl_ne_nil _)
      | l :: ls => simp
  · refine ⟨fun c => ?_, ?_, ?_, ?_, deleteSelection_length h, insertText_length h⟩
    · unfold handleRune
      dsimp only
      rw [markDirty_lines]
      simpa using preDelete_length h
    · unfold handleEnter
      dsimp only
      rw [markDirtyLines_lines]
      simp only [List.length_append, List.length_cons, List.length_take, List.length_drop,
        List.length_set]
      omega
    · unfold handleBackspace
      split
      · exact deleteSelection_length h
      · dsimp only
        split
        · split
          · rw [markDirty_lines]
            simpa using h
          · exact h
        · split
          · rw [markDirtyLines_lines]
            refine eraseIdx_length_pos ?_ (by omega)
            simpa using h
          · exact h
    · unfold handleDelete
      split
      · exact deleteSelection_length h
      · dsimp only
        split
        · rw [markDirty_lines]
          simpa using h
        · split
          · rw [markDirtyLines_lines]
            refine eraseIdx_length_pos ?_ (by omega)
            simpa using h
          · exact h

/-- Witness for C8: a one-line buffer stays non-empty under a character insert
and a backspace, and file load of the empty byte string yields one line. -/
theorem c8_line_store_never_empty_witness :
    1 ≤ (loadLines []).length ∧ (1 : Nat) ≤ (mkBuffer [[97]]).lines.length ∧
      1 ≤ (handleRune (mkBuffer [[97]]) 98).lines.length ∧
      1 ≤ (handleBackspace (mkBuffer [[97]])).lines.length :=
  ⟨c8_line_store_never_empty.2.1 [], by decide,
    (c8_line_store_never_empty.2.2 (mkBuffer [[97]]) (by decide)).1 98,
    (c8_line_store_never_empty.2.2 (mkBuffer [[97]]) (by decide)).2.2.1⟩

lemma startsWith_nil_ne {q : GoStr} (hq : q ≠ []) : startsWith [] q = false := by
  match q with
  | [] => exact absurd rfl hq
  | a :: qs => rfl

lemma occursAt_cons_succ (c : Nat) (rest q : GoStr) (i : Nat) :
    occursAt (c :: rest) q (i + 1) = occursAt rest q i := by
  simp [occursAt, List.drop_succ_cons]

lemma indexOf_none_occursAt {s q : GoStr} (h : indexOf s q = none) (i : Nat) :
    occursAt s q i = false := by
  induction s generalizing i with
  | nil =>
    by_cases hsw : startsWith [] q = true
    · simp [indexOf, hsw] at h
    · simp only [occursAt, List.drop_nil]
      simpa using hsw
  | cons c rest ih =>
    by_cases hsw : startsWith (c :: rest) q = true
    · simp [indexOf, hsw] at h
    · simp only [indexOf, if_neg hsw, Option.map_eq_none'] at h
      cases i with
      | zero =>
        simp only [occursAt, List.drop_zero]
        simpa using hsw
      | succ i => rw [occursAt_cons_succ]; exact ih h i

lemma indexOf_some_occursAt {s q : GoStr} {i : Nat} (h : indexOf s q = some i) :
    occursAt s q i = true ∧ ∀ j, j < i → occursAt s q j = false := by
  induction s generalizing i with
  | nil =>
    by_cases hsw : startsWith [] q = true
    · simp only [indexOf, if_pos hsw, Option.some.injEq] at h
      subst h
      exact ⟨hsw, fun j hj => absurd hj (Nat.not_lt_zero j)⟩
    · simp [indexOf, hsw] at h
  | cons c rest ih =>
    by_cases hsw : startsWith (c :: rest) q = true
    · simp only [indexOf, if_pos hsw, Option.some.injEq] at h
      subst h
      exact ⟨hsw, fun j hj => absurd hj (Nat.not_lt_zero j)⟩
    · simp only [indexOf, if_neg hsw, Option.map_eq_some'] at h
      obtain ⟨i0, hi0, hii⟩ := h
      obtain ⟨hocc, hmin⟩ := ih hi0
      subst hii
      refine ⟨by rw [occursAt_cons_succ]; exact hocc, fun j hj => ?_⟩
      cases j with
      | zero =>
        simp only [occursAt, List.drop_zero]
        simpa using hsw
      | succ j => rw [occursAt_cons_succ]; exact hmin j (by omega)

lemma lt_length_of_occursAt {s q : GoStr} {i : Nat} (hq : q ≠ [])
    (h : occursAt s q i = true) : i < s.length := by
  by_contra hge
  push_neg at hge
  rw [occursAt, List.drop_of_length_le hge, startsWith_nil_ne hq] at h
  exact Bool.false_ne_true h

lemma mem_searchLineAux {q : GoStr} (hq : q ≠ []) :
    ∀ (fuel : Nat) (suffix : GoStr) (base c : Nat), suffix.length < fuel →
      (c ∈ searchLineAux q fuel suffix base ↔
        ∃ i, c = base + i ∧ occursAt suffix q i = true) := by
  intro fuel
  induction fuel with
  | zero => intro suffix base c hlen; exact absurd hlen (Nat.not_lt_zero _)
  | succ fuel ih =>
    intro suffix base c hlen
    match hidx : indexOf suffix q with
    | none =>
      simp only [searchLineAux, hidx, List.not_mem_nil, false_iff]
      rintro ⟨i, hc, hocc⟩
      rw [indexOf_none_occursAt hidx i] at hocc
      exact Bool.false_ne_true hocc
    | some idx =>
      obtain ⟨hocc, hmin⟩ := indexOf_some_occursAt hidx
      have hidxlt : idx < suffix.length := lt_length_of_occursAt hq hocc
      have hlen2 : (suffix.drop (idx + 1)).length < fuel := by
        rw [List.length_drop]; omega
      simp only [searchLineAux, hidx, List.mem_cons]
      rw [ih (suffix.drop (idx + 1)) (base + idx + 1) c hlen2]
      constructor
      · rintro (h1 | ⟨j, hc, hocc2⟩)
        · exact ⟨idx, h1, hocc⟩
        · refine ⟨idx + 1 + j, by omega, ?_⟩
          rw [occursAt, List.drop_drop] at hocc2
          exact hocc2
      · rintro ⟨i, hc, hocc2⟩
        rcases Nat.lt_trichotomy i idx with hlt | heq | hgt
        · rw [hmin i hlt] at hocc2
          exact absurd hocc2 Bool.false_ne_true
        · subst heq
          exact Or.inl hc
        · refine Or.inr ⟨i - idx - 1, by omega, ?_⟩
          rw [occursAt, List.drop_drop]
          have harith : idx + 1 + (i - idx - 1) = i := by omega
          rw [harith]
          exact hocc2

lemma mem_searchLine {q line : GoStr} (hq : q ≠ []) (c : Nat) :
    c ∈ searchLine q line ↔ occursAt line q c = true := by
  unfold searchLine
  rw [mem_searchLineAux hq (line.length + 1) line 0 c (by omega)]
  constructor
  · rintro ⟨i, hc, hocc⟩
    have : c = i := by omega
    rwa [this]
  · intro h
    exact ⟨c, by omega, h⟩

/-- C4: search resumes one byte past the start of the previous match, so
overlapping matches are all found: on the line "ababab" the query "ab" matches
exactly at columns 0, 2 and 4 in document order with length 2; and in general a
match record is produced exactly for every column where the query literally
occurs, always with length len(query). -/
theorem c4_search_overlapping (lines : List GoStr) (q : GoStr) (m : SearchMatch)
    (hq : q ≠ []) :
    executeSearch [[97, 98, 97, 98, 97, 98]] [97, 98] =
        [⟨0, 0, 2⟩, ⟨0, 2, 2⟩, ⟨0, 4, 2⟩] ∧
      (m ∈ executeSearch lines q ↔
        m.line < lines.length ∧ occursAt (lines.getD m.line []) q m.col = true ∧
          m.len = q.length) := by
  refine ⟨by decide, ?_⟩
  unfold executeSearch
  rw [if_neg hq, List.mem_flatMap]
  constructor
  · rintro ⟨p, hp, hm⟩
    rw [List.mem_map] at hm
    obtain ⟨c, hc, hmc⟩ := hm
    obtain ⟨i, l⟩ := p
    rw [List.mk_mem_enum_iff_getElem?] at hp
    have hilt : i < lines.length := by
      by_contra hge
      rw [List.getElem?_eq_none (by omega)] at hp
      exact Option.noConfusion hp
    have hl : lines.getD i [] = l := by
      rw [List.getD_eq_getElem _ _ hilt]
      rw [List.getElem?_eq_getElem hilt] at hp
      exact Option.some.inj hp
    subst hmc
    refine ⟨hilt, ?_, rfl⟩
    rw [hl]
    exact (mem_searchLine hq c).1 hc
  · rintro ⟨hlt, hocc, hlen⟩
    refine ⟨(m.line, lines.getD m.line []), ?_, ?_⟩
    · rw [List.mk_mem_enum_iff_getElem?, List.getElem?_eq_getElem hlt,
        List.getD_eq_getElem _ _ hlt]
    · rw [List.mem_map]
      refine ⟨m.col, (mem_searchLine hq m.col).2 hocc, ?_⟩
      cases m
      simp_all

/-- Witness for C4 at the match record at column 2 of "ababab". -/
theorem c4_search_overlapping_witness :
    executeSearch [[97, 98, 97, 98, 97, 98]] [97, 98] =
        [⟨0, 0, 2⟩, ⟨0, 2, 2⟩, ⟨0, 4, 2⟩] ∧
      ((⟨0, 2, 2⟩ : SearchMatch) ∈ executeSearch [[97, 98, 97, 98, 97, 98]] [97, 98] ↔
        (0 : Nat) < 1 ∧
          occursAt [97, 98, 97, 98, 97, 98] [97, 98] 2 = true ∧ (2 : Nat) = 2) :=
  c4_search_overlapping [[97, 98, 97, 98, 97, 98]] [97, 98] ⟨0, 2, 2⟩ (by decide)

lemma take_at_append {α : Type} {A B : List α} {n : Nat} (h : A.length = n) :
    (A ++ B).take n = A := by
  subst h
  exact List.take_left A B

lemma drop_at_append {α : Type} {A B : List α} {n : Nat} (h : A.length = n) :
    (A ++ B).drop n = B := by
  subst h
  exact List.drop_left A B

lemma getD_at_append {α : Type} {pre : List α} {x : α} {post : List α} {d : α} {n : Nat}
    (h : pre.length = n) : (pre ++ x :: post).getD n d = x := by
  subst h
  rw [List.getD_append_right _ _ _ _ (Nat.le_refl _), Nat.sub_self]
  rfl

lemma set_at_append {α : Type} {pre : List α} {x y : α} {post : List α} {n : Nat}
    (h : pre.length = n) : (pre ++ x :: post).set n y = pre ++ y :: post := by
  subst h
  rw [List.set_append, if_neg (Nat.lt_irrefl _), Nat.sub_self]
  rfl

lemma take_succ_at_append {α : Type} {pre : List α} {x : α} {post : List α} {n : Nat}
    (h : pre.length = n) : (pre ++ x :: post).take (n + 1) = pre ++ [x] := by
  subst h
  rw [List.take_append 1]
  rfl

lemma drop_succ_at_append {α : Type} {pre : List α} {x : α} {post : List α} {n : Nat}
    (h : pre.length = n) : (pre ++ x :: post).drop (n + 1) = post := by
  subst h
  rw [List.drop_append 1]
  rfl

lemma drop_min_length {α : Type} (l : List α) (n : Nat) :
    l.drop (min n l.length) = l.drop n := by
  rcases Nat.le_total n l.length with h | h
  · rw [Nat.min_eq_left h]
  · rw [Nat.min_eq_right h, List.drop_length, List.drop_of_length_le h]

lemma take_mid_drop {α : Type} (l : List α) {a b : Nat} (hab : a ≤ b) :
    l.take a ++ ((l.take b).drop a ++ l.drop b) = l := by
  have h1 : l.take a = (l.take b).take a := by
    rw [List.take_take, Nat.min_eq_left hab]
  rw [← List.append_assoc, h1, List.take_append_drop, List.take_append_drop]

lemma list_surgery {α : Type} {l : List α} {i j : Nat} (d : α) (hij : i < j)
    (hj : j < l.length) :
    l = l.take i ++ l.getD i d ::
      ((l.drop (i + 1)).take (j - i - 1) ++ l.getD j d :: l.drop (j + 1)) := by
  have hi : i < l.length := Nat.lt_trans hij hj
  have h1 : l.drop i = l.getD i d :: l.drop (i + 1) := by
    rw [List.getD_eq_getElem _ _ hi]
    exact List.drop_eq_getElem_cons hi
  have h2 : (l.drop (i + 1)).drop (j - i - 1) = l.drop j := by
    rw [List.drop_drop]
    congr 1
    omega
  have h3 : l.drop j = l.getD j d :: l.drop (j + 1) := by
    rw [List.getD_eq_getElem _ _ hj]
    exact List.drop_eq_getElem_cons hj
  calc l = l.take i ++ l.drop i := (List.take_append_drop i l).symm
    _ = l.take i ++ l.getD i d :: l.drop (i + 1) := by rw [h1]
    _ = l.take i ++ l.getD i d ::
          ((l.drop (i + 1)).take (j - i - 1) ++ (l.drop (i + 1)).drop (j - i - 1)) := by
          rw [List.take_append_drop]
    _ = _ := by rw [h2, h3]

lemma flatMap_nl_join (ms : List GoStr) (last : GoStr) :
    ms.flatMap (fun l => l ++ [nl]) ++ last = joinNl (ms ++ [last]) := by
  induction ms with
  | nil => simp [joinNl]
  | cons m ms ih =>
    rw [List.flatMap_cons, List.cons_append, joinNl_cons (by simp)]
    simp only [List.append_assoc, List.cons_append, List.nil_append]
    rw [ih]

lemma getLastD_cons_concat (x : GoStr) (ms : List GoStr) (y : GoStr) :
    (x :: (ms ++ [y])).getLastD [] = y := by
  rw [List.getLastD_eq_getLast?, ← List.cons_append, List.getLast?_concat]
  rfl

lemma lineAt_mem {b : Buffer} {i : Nat} (h : i < b.lines.length) : lineAt b i ∈ b.lines := by
  unfold lineAt
  rw [List.getD_eq_getElem _ _ h]
  exact List.getElem_mem h

lemma deleteSelection_spec (b : Buffer) {sl sc el ec : Nat}
    (hact : b.sel.active = true) (hns : normSel b.sel = (sl, sc, el, ec)) :
    (deleteSelection b).lines = b.lines.take sl ++
        ((lineAt b sl).take (min sc (lineAt b sl).length) ++
          (lineAt b el).drop (min ec (lineAt b el).length)) :: b.lines.drop (el + 1) ∧
      (deleteSelection b).cursorX = min sc (lineAt b sl).length ∧
      (deleteSelection b).cursorY = sl := by
  unfold deleteSelection
  rw [if_neg (by simp [hact]), hns]
  dsimp only
  exact ⟨markDirtyLines_lines _ _ _, markDirtyLines_cursorX _ _ _,
    markDirtyLines_cursorY _ _ _⟩

lemma getSelectedText_single (b : Buffer) {sl sc el ec : Nat}
    (hact : b.sel.active = true) (hns : normSel b.sel = (sl, sc, el, ec)) (heq : sl = el) :
    getSelectedText b = ((lineAt b sl).take (min ec (lineAt b sl).length)).drop
      (min sc (lineAt b sl).length) := by
  unfold getSelectedText
  rw [if_neg (by simp [hact]), hns]
  dsimp only
  rw [if_pos heq]

lemma getSelectedText_multi (b : Buffer) {sl sc el ec : Nat}
    (hact : b.sel.active = true) (hns : normSel b.sel = (sl, sc, el, ec)) (hlt : sl < el) :
    getSelectedText b = ((lineAt b sl).drop sc ++ nl ::
        ((b.lines.drop (sl + 1)).take (el - sl - 1)).flatMap (fun l => l ++ [nl])) ++
      (lineAt b el).take (min ec (lineAt b el).length) := by
  unfold getSelectedText
  rw [if_neg (by simp [hact]), hns]
  dsimp only
  rw [if_neg (by omega)]

lemma roundtrip_single (b : Buffer) {sl sc el ec : Nat}
    (hact : b.sel.active = true) (hns : normSel b.sel = (sl, sc, el, ec))
    (heq : sl = el) (hscec : sc ≤ ec) (hel : el < b.lines.length)
    (hnl : ∀ l ∈ b.lines, nl ∉ l) :
    (insertText (deleteSelection b) (getSelectedText b)).lines = b.lines := by
  subst heq
  obtain ⟨hdl, hdx, hdy⟩ := deleteSelection_spec b hact hns
  have hget := getSelectedText_single b hact hns rfl
  have hslv : sl < b.lines.length := hel
  have hLnl : nl ∉ lineAt b sl := hnl _ (lineAt_mem hslv)
  have hs2e2 : min sc (lineAt b sl).length ≤ min ec (lineAt b sl).length := by omega
  have hEnl : nl ∉ ((lineAt b sl).take (min ec (lineAt b sl).length)).drop
      (min sc (lineAt b sl).length) := fun hm =>
    hLnl (List.mem_of_mem_take (List.mem_of_mem_drop hm))
  have hprelen : (b.lines.take sl).length = sl := by
    rw [List.length_take]
    omega
  have htklen : ((lineAt b sl).take (min sc (lineAt b sl).length)).length =
      min sc (lineAt b sl).length := by
    rw [List.length_take]
    have := Nat.min_le_right sc (lineAt b sl).length
    omega
  have hdropsl : b.lines.drop sl = lineAt b sl :: b.lines.drop (sl + 1) := by
    unfold lineAt
    rw [List.getD_eq_getElem _ _ hslv]
    exact List.drop_eq_getElem_cons hslv
  have hlineM : lineAt (deleteSelection b) sl =
      (lineAt b sl).take (min sc (lineAt b sl).length) ++
        (lineAt b sl).drop (min ec (lineAt b sl).length) := by
    unfold lineAt
    rw [hdl, getD_at_append hprelen]
    rfl
  rw [hget]
  unfold insertText
  dsimp only
  rw [splitNl_no_nl hEnl]
  split
  case isFalse hF => exact absurd rfl hF
  case isTrue hT =>
    rw [markDirty_lines]
    dsimp only
    rw [hdy, hlineM, hdx, hdl, take_at_append htklen, drop_at_append htklen,
      List.append_assoc, take_mid_drop _ hs2e2, set_at_append hprelen]
    conv_rhs => rw [← List.take_append_drop sl b.lines, hdropsl]

lemma roundtrip_multi (b : Buffer) {sl sc el ec : Nat}
    (hact : b.sel.active = true) (hns : normSel b.sel = (sl, sc, el, ec))
    (hlt : sl < el) (hel : el < b.lines.length)
    (hnl : ∀ l ∈ b.lines, nl ∉ l) :
    (insertText (deleteSelection b) (getSelectedText b)).lines = b.lines := by
  obtain ⟨hdl, hdx, hdy⟩ := deleteSelection_spec b hact hns
  have hget := getSelectedText_multi b hact hns hlt
  have hslv : sl < b.lines.length := Nat.lt_trans hlt hel
  have hL1nl : nl ∉ lineAt b sl := hnl _ (lineAt_mem hslv)
  have hL2nl : nl ∉ lineAt b el := hnl _ (lineAt_mem hel)
  have hprelen : (b.lines.take sl).length = sl := by
    rw [List.length_take]
    omega
  have htklen : ((lineAt b sl).take (min sc (lineAt b sl).length)).length =
      min sc (lineAt b sl).length := by
    rw [List.length_take]
    have := Nat.min_le_right sc (lineAt b sl).length
    omega
  have hdropmin : (lineAt b sl).drop sc =
      (lineAt b sl).drop (min sc (lineAt b sl).length) := (drop_min_length _ _).symm
  have hjoin : getSelectedText b =
      joinNl ((lineAt b sl).drop (min sc (lineAt b sl).length) ::
        ((b.lines.drop (sl + 1)).take (el - sl - 1) ++
          [(lineAt b el).take (min ec (lineAt b el).length)])) := by
    rw [hget, hdropmin, joinNl_cons (by simp), ← flatMap_nl_join]
    simp [List.append_assoc]
  have hmsnl : ∀ l ∈ (b.lines.drop (sl + 1)).take (el - sl - 1), nl ∉ l := fun l hl =>
    hnl l (List.mem_of_mem_drop (List.mem_of_mem_take hl))
  have hsplit : splitNl (getSelectedText b) =
      (lineAt b sl).drop (min sc (lineAt b sl).length) ::
        ((b.lines.drop (sl + 1)).take (el - sl - 1) ++
          [(lineAt b el).take (min ec (lineAt b el).length)]) := by
    rw [hjoin, splitNl_joinNl (by simp)]
    intro l hl
    rcases List.mem_cons.1 hl with h1 | h2
    · subst h1
      exact fun hm => hL1nl (List.mem_of_mem_drop hm)
    · rcases List.mem_append.1 h2 with h3 | h4
      · exact hmsnl l h3
      · rw [List.mem_singleton.1 h4]
        exact fun hm => hL2nl (List.mem_of_mem_take hm)
  have hdropsl : b.lines.drop sl = lineAt b sl :: b.lines.drop (sl + 1) := by
    unfold lineAt
    rw [List.getD_eq_getElem _ _ hslv]
    exact List.drop_eq_getElem_cons hslv
  have hlineM : lineAt (deleteSelection b) sl =
      (lineAt b sl).take (min sc (lineAt b sl).length) ++
        (lineAt b el).drop (min ec (lineAt b el).length) := by
    unfold lineAt
    rw [hdl, getD_at_append hprelen]
    rfl
  unfold insertText
  dsimp only
  rw [hsplit]
  split
  case isTrue hT =>
    exfalso
    simp only [List.length_cons, List.length_append, List.length_singleton] at hT
    omega
  case isFalse hF =>
    rw [markDirtyLines_lines]
    dsimp only
    rw [hdy, hlineM, hdx, hdl, take_at_append htklen, drop_at_append htklen]
    simp only [List.headD_cons, List.drop_succ_cons, List.drop_zero,
      List.dropLast_concat, getLastD_cons_concat]
    rw [List.take_append_drop, set_at_append hprelen, take_succ_at_append hprelen,
      drop_succ_at_append hprelen, List.take_append_drop]
    conv_rhs => rw [list_surgery ([] : GoStr) hlt hel]
    unfold lineAt
    simp [List.append_assoc]

/-- C1: for an active selection whose low endpoint is textually before its high
endpoint and whose line indices are in bounds (lines holding no raw newline
byte, as the line store maintains), extracting the selected text, deleting the
selection (which leaves the cursor at the low endpoint) and re-inserting the
extracted text reproduces the pre-delete line store exactly. -/
theorem c1_extract_delete_insert_roundtrip (b : Buffer)
    (hact : b.sel.active = true)
    (hnorm : b.sel.startLine < b.sel.endLine ∨
      (b.sel.startLine = b.sel.endLine ∧ b.sel.startCol ≤ b.sel.endCol))
    (hel : b.sel.endLine < b.lines.length)
    (hnl : ∀ l ∈ b.lines, nl ∉ l) :
    (insertText (deleteSelection b) (getSelectedText b)).lines = b.lines := by
  have hns : normSel b.sel =
      (b.sel.startLine, b.sel.startCol, b.sel.endLine, b.sel.endCol) := by
    unfold normSel
    rw [if_neg]
    rintro (h1 | ⟨h2, h3⟩) <;> rcases hnorm with h4 | ⟨h5, h6⟩ <;> omega
  rcases hnorm with hlt | ⟨heq, hle⟩
  · exact roundtrip_multi b hact hns hlt hel hnl
  · exact roundtrip_single b hact hns heq hle hel hnl

/-- Witness for C1 on the three-line buffer "abc"/"def"/"ghi" with the active
selection (0,1)-(2,2). -/
theorem c1_extract_delete_insert_roundtrip_witness :
    (insertText
        (deleteSelection
          { mkBuffer [[97, 98, 99], [100, 101, 102], [103, 104, 105]] with
              sel := ⟨0, 1, 2, 2, true⟩ })
        (getSelectedText
          { mkBuffer [[97, 98, 99], [100, 101, 102], [103, 104, 105]] with
              sel := ⟨0, 1, 2, 2, true⟩ })).lines =
      [[97, 98, 99], [100, 101, 102], [103, 104, 105]] :=
  c1_extract_delete_insert_roundtrip
    { mkBuffer [[97, 98, 99], [100, 101, 102], [103, 104, 105]] with
        sel := ⟨0, 1, 2, 2, true⟩ }
    (by decide) (by decide) (by decide) (by decide)

lemma getD_set_ne {α : Type} (l : List α) {i j : Nat} (x : α) (d : α) (h : i ≠ j) :
    (l.set i x).getD j d = l.getD j d := by
  rw [List.getD_eq_getElem?_getD, List.getD_eq_getElem?_getD, List.getElem?_set_ne h]

lemma getD_modifyAt_ne (cache : List (List TokenInfo)) {i j : Nat}
    (f : List TokenInfo → List TokenInfo) (h : i ≠ j) :
    (modifyAt cache i f).getD j [] = cache.getD j [] := by
  unfold modifyAt
  exact getD_set_ne _ _ _ h

lemma modifyAt_length (cache : List (List TokenInfo)) (i : Nat)
    (f : List TokenInfo → List TokenInfo) : (modifyAt cache i f).length = cache.length := by
  unfold modifyAt
  rw [List.length_set]

lemma applyParts_single_step (style : Nat) (p : GoStr) (cache : List (List TokenInfo))
    (ln col : Nat) :
    applyParts style [p] (cache, ln, col) =
      ((if ln < cache.length ∧ p ≠ [] then
          modifyAt cache ln (fun spans => spans ++ [⟨col, p.length, style⟩])
        else cache), ln, col + p.length) := rfl

lemma applyParts_cons_step (style : Nat) (p p2 : GoStr) (ps2 : List GoStr)
    (cache : List (List TokenInfo)) (ln col : Nat) :
    applyParts style (p :: p2 :: ps2) (cache, ln, col) =
      applyParts style (p2 :: ps2)
        ((if ln < cache.length ∧ p ≠ [] then
            modifyAt cache ln (fun spans => spans ++ [⟨col, p.length, style⟩])
          else cache), ln + 1, 0) := rfl

lemma applyParts_fst_length (style : Nat) :
    ∀ (parts : List GoStr) (cache : List (List TokenInfo)) (ln col : Nat),
      (applyParts style parts (cache, ln, col)).1.length = cache.length := by
  intro parts
  induction parts with
  | nil => intro cache ln col; rfl
  | cons p ps ih =>
    intro cache ln col
    cases ps with
    | nil =>
      rw [applyParts_single_step]
      dsimp only
      split
      · rw [modifyAt_length]
      · rfl
    | cons p2 ps2 =>
      rw [applyParts_cons_step, ih]
      split
      · rw [modifyAt_length]
      · rfl

lemma applyParts_lineNum (style : Nat) :
    ∀ (parts : List GoStr) (cache : List (List TokenInfo)) (ln col : Nat), parts ≠ [] →
      (applyParts style parts (cache, ln, col)).2.1 = ln + (parts.length - 1) := by
  intro parts
  induction parts with
  | nil => intro cache ln col h; exact absurd rfl h
  | cons p ps ih =>
    intro cache ln col _
    cases ps with
    | nil => rw [applyParts_single_step]; rfl
    | cons p2 ps2 =>
      rw [applyParts_cons_step, ih _ _ _ (by simp)]
      simp only [List.length_cons]
      omega

lemma applyParts_frame (style : Nat) :
    ∀ (parts : List GoStr) (cache : List (List TokenInfo)) (ln col j : Nat),
      (j < ln ∨ ln + parts.length ≤ j) →
      (applyParts style parts (cache, ln, col)).1.getD j [] = cache.getD j [] := by
  intro parts
  induction parts with
  | nil => intro cache ln col j hj; rfl
  | cons p ps ih =>
    intro cache ln col j hj
    have hij : ln ≠ j := by
      simp only [List.length_cons] at hj
      omega
    cases ps with
    | nil =>
      rw [applyParts_single_step]
      dsimp only
      split
      · exact getD_modifyAt_ne _ _ hij
      · rfl
    | cons p2 ps2 =>
      rw [applyParts_cons_step,
        ih _ _ _ _ (by simp only [List.length_cons] at hj ⊢; omega)]
      split
      · exact getD_modifyAt_ne _ _ hij
      · rfl

lemma applyTokens_fst_length :
    ∀ (ts : TokenStream) (cache : List (List TokenInfo)) (ln col : Nat),
      (applyTokens ts (cache, ln, col)).1.length = cache.length := by
  intro ts
  induction ts with
  | nil => intro cache ln col; rfl
  | cons t ts ih =>
    intro cache ln col
    obtain ⟨v, sty⟩ := t
    show (applyTokens ts (applyParts sty (splitNl v) (cache, ln, col))).1.length = _
    rcases hst : applyParts sty (splitNl v) (cache, ln, col) with ⟨c1, l1, co1⟩
    rw [ih]
    have := applyParts_fst_length sty (splitNl v) cache ln col
    rw [hst] at this
    exact this

lemma splitNl_length (s : GoStr) : (splitNl s).length = s.count nl + 1 := by
  induction s with
  | nil => rfl
  | cons c rest ih =>
    unfold splitNl
    by_cases hc : c = nl
    · subst hc
      rw [if_pos rfl, List.length_cons, ih, List.count_cons_self]
    · rw [if_neg hc]
      match hs : splitNl rest with
      | [] => exact absurd hs (splitNl_ne_nil rest)
      | l :: ls =>
        rw [hs] at ih
        simp only [List.length_cons] at ih ⊢
        rw [List.count_cons_of_ne (fun h => hc h.symm) rest]
        omega

lemma count_flatMap_fst (ts : TokenStream) (a : Nat) :
    (ts.flatMap (fun t => t.1)).count a = (ts.map (fun t => t.1.count a)).sum := by
  induction ts with
  | nil => rfl
  | cons t ts ih => simp [List.count_append, ih]

lemma applyTokens_frame :
    ∀ (ts : TokenStream) (cache : List (List TokenInfo)) (ln col j : Nat),
      (j < ln ∨ ln + (ts.map (fun t => t.1.count nl)).sum < j) →
      (applyTokens ts (cache, ln, col)).1.getD j [] = cache.getD j [] := by
  intro ts
  induction ts with
  | nil => intro cache ln col j hj; rfl
  | cons t ts ih =>
    intro cache ln col j hj
    obtain ⟨v, sty⟩ := t
    simp only [List.map_cons, List.sum_cons] at hj
    show (applyTokens ts (applyParts sty (splitNl v) (cache, ln, col))).1.getD j [] = _
    rcases hst : applyParts sty (splitNl v) (cache, ln, col) with ⟨c1, l1, co1⟩
    have hlen := applyParts_fst_length sty (splitNl v) cache ln col
    have hln := applyParts_lineNum sty (splitNl v) cache ln col (splitNl_ne_nil v)
    have hfr := applyParts_frame sty (splitNl v) cache ln col j
      (by rw [splitNl_length]; omega)
    rw [hst] at hlen hln hfr
    dsimp only at hlen hln hfr
    rw [splitNl_length] at hln
    rw [ih c1 l1 co1 j (by omega), hfr]

lemma clearRange_length (cache : List (List TokenInfo)) (s e : Nat) :
    (clearRange cache s e).length = cache.length := by
  unfold clearRange
  rw [List.length_mapIdx]

lemma getD_clearRange_out (cache : List (List TokenInfo)) {s e j : Nat}
    (h : j < s ∨ e < j) : (clearRange cache s e).getD j [] = cache.getD j [] := by
  unfold clearRange
  rcases Nat.lt_or_ge j cache.length with hj | hj
  · rw [List.getD_eq_getElem _ _ (by rw [List.length_mapIdx]; exact hj),
      List.getD_eq_getElem _ _ hj, List.getElem_mapIdx]
    rw [if_neg (by omega)]
  · rw [List.getD_eq_getElem?_getD, List.getD_eq_getElem?_getD,
      List.getElem?_eq_none (by rw [List.length_mapIdx]; exact hj),
      List.getElem?_eq_none hj]

lemma getStyleAt_congr {c1 c2 : List (List TokenInfo)} {j : Nat}
    (hlen : c1.length = c2.length) (hj : c1.getD j [] = c2.getD j []) (col : Nat) :
    getStyleAt c1 j col = getStyleAt c2 j col := by
  unfold getStyleAt
  rw [hlen, hj]

lemma count_nl_joinNl :
    ∀ ls : List GoStr, ls ≠ [] → (∀ l ∈ ls, nl ∉ l) →
      (joinNl ls).count nl = ls.length - 1 := by
  intro ls
  induction ls using joinNl.induct with
  | case1 => intro h; exact absurd rfl h
  | case2 l =>
    intro _ h
    show l.count nl = 0
    rw [List.count_eq_zero]
    exact h l (List.mem_cons_self l [])
  | case3 l l2 hne ih =>
    intro _ h
    rw [joinNl_cons hne, List.count_append, List.count_cons_self,
      List.count_eq_zero.2 (h l (List.mem_cons_self l l2)),
      ih hne (fun x hx => h x (List.mem_cons_of_mem l hx))]
    have : 0 < l2.length := List.length_pos.2 hne
    simp only [List.length_cons]
    omega

/-- C5: a dirty-range refresh re-tokenizes only the dirty range widened by the
fixed 50-line context margin clamped to the document bounds — the new cache is a
function of the widened window's lines alone, so two documents agreeing there
refresh identically — and every line outside the widened window keeps its cached
span list, hence its GetStyleAt result, unchanged from its pre-edit value.
The tokenizer hypothesis states the chroma capability's contract: the token
values concatenate back to the submitted text. -/
theorem c5_dirty_refresh_bounded_frame (tok : Tokenizer) (lines : List GoStr)
    (cache : List (List TokenInfo)) (s e j col : Nat)
    (hcache : cache.length = lines.length)
    (hnl : ∀ l ∈ lines, nl ∉ l)
    (htok : ∀ t : GoStr, (tok t).flatMap (fun p => p.1) = t)
    (hse : s ≤ e) (he : e < lines.length)
    (hout : j < s - contextLines ∨ min (lines.length - 1) (e + contextLines) < j) :
    ((updateTokenCacheRange tok lines cache s e).getD j [] = cache.getD j [] ∧
      getStyleAt (updateTokenCacheRange tok lines cache s e) j col =
        getStyleAt cache j col) ∧
    (∀ lines2 : List GoStr, lines2.length = lines.length →
      (lines2.drop (s - contextLines)).take
          (min (lines2.length - 1) (e + contextLines) + 1 - (s - contextLines)) =
        (lines.drop (s - contextLines)).take
          (min (lines.length - 1) (e + contextLines) + 1 - (s - contextLines)) →
      updateTokenCacheRange tok lines2 cache s e =
        updateTokenCacheRange tok lines cache s e) := by
  have hslice_len : ((lines.drop (s - contextLines)).take
      (min (lines.length - 1) (e + contextLines) + 1 - (s - contextLines))).length =
      min (lines.length - 1) (e + contextLines) + 1 - (s - contextLines) := by
    rw [List.length_take, List.length_drop]
    unfold contextLines
    omega
  have hslice_ne : (lines.drop (s - contextLines)).take
      (min (lines.length - 1) (e + contextLines) + 1 - (s - contextLines)) ≠ [] := by
    intro h0
    rw [h0] at hslice_len
    unfold contextLines at hslice_len
    simp only [List.length_nil] at hslice_len
    omega
  have hslice_nl : ∀ l ∈ (lines.drop (s - contextLines)).take
      (min (lines.length - 1) (e + contextLines) + 1 - (s - contextLines)), nl ∉ l :=
    fun l hl => hnl l (List.mem_of_mem_drop (List.mem_of_mem_take hl))
  have hcount : (joinNl ((lines.drop (s - contextLines)).take
      (min (lines.length - 1) (e + contextLines) + 1 - (s - contextLines)))).count nl =
      min (lines.length - 1) (e + contextLines) - (s - contextLines) := by
    rw [count_nl_joinNl _ hslice_ne hslice_nl, hslice_len]
    unfold contextLines
    omega
  have htotal : ((tok (joinNl ((lines.drop (s - contextLines)).take
      (min (lines.length - 1) (e + contextLines) + 1 - (s - contextLines))))).map
        (fun t => t.1.count nl)).sum =
      min (lines.length - 1) (e + contextLines) - (s - contextLines) := by
    have h2 := count_flatMap_fst (tok (joinNl ((lines.drop (s - contextLines)).take
      (min (lines.length - 1) (e + contextLines) + 1 - (s - contextLines))))) nl
    rw [htok] at h2
    rw [← h2]
    exact hcount
  have hframe : (updateTokenCacheRange tok lines cache s e).getD j [] =
      cache.getD j [] := by
    unfold updateTokenCacheRange
    dsimp only
    rw [if_neg (by omega)]
    rw [applyTokens_frame _ _ _ _ _ (by rw [htotal]; unfold contextLines at hout ⊢; omega)]
    exact getD_clearRange_out cache hout
  have hlen : (updateTokenCacheRange tok lines cache s e).length = cache.length := by
    unfold updateTokenCacheRange
    dsimp only
    rw [if_neg (by omega), applyTokens_fst_length, clearRange_length]
  refine ⟨⟨hframe, getStyleAt_congr hlen hframe col⟩, fun lines2 hlen2 hslice => ?_⟩
  rw [hlen2] at hslice
  unfold updateTokenCacheRange
  dsimp only
  rw [hlen2, hslice]

/-- Witness for C5 on a 60-line document with dirty range [0, 0]: the widened
window is [0, 50], line 55 keeps its pre-edit span, and a document agreeing on
the window refreshes identically. -/
theorem c5_dirty_refresh_bounded_frame_witness :
    ((updateTokenCacheRange (fun t => [(t, 1)]) (List.replicate 60 [97])
          (List.replicate 60 [⟨9, 9, 9⟩]) 0 0).getD 55 [] =
        (List.replicate 60 ([⟨9, 9, 9⟩] : List TokenInfo)).getD 55 [] ∧
      getStyleAt (updateTokenCacheRange (fun t => [(t, 1)]) (List.replicate 60 [97])
          (List.replicate 60 [⟨9, 9, 9⟩]) 0 0) 55 0 =
        getStyleAt (List.replicate 60 ([⟨9, 9, 9⟩] : List TokenInfo)) 55 0) ∧
      updateTokenCacheRange (fun t => [(t, 1)])
          (List.replicate 51 [97] ++ List.replicate 9 [99])
          (List.replicate 60 [⟨9, 9, 9⟩]) 0 0 =
        updateTokenCacheRange (fun t => [(t, 1)]) (List.replicate 60 [97])
          (List.replicate 60 [⟨9, 9, 9⟩]) 0 0 :=
  ⟨(c5_dirty_refresh_bounded_frame (fun t => [(t, 1)]) (List.replicate 60 [97])
      (List.replicate 60 [⟨9, 9, 9⟩]) 0 0 55 0 (by simp) (by decide)
      (fun t => by simp) (by decide) (by decide) (by decide)).1,
    (c5_dirty_refresh_bounded_frame (fun t => [(t, 1)]) (List.replicate 60 [97])
      (List.replicate 60 [⟨9, 9, 9⟩]) 0 0 55 0 (by simp) (by decide)
      (fun t => by simp) (by decide) (by decide) (by decide)).2
      (List.replicate 51 [97] ++ List.replicate 9 [99]) (by simp) (by decide)⟩

/-- C3: after InsertText the cursor column can exceed the current line's rune
count, violating the cursor invariant the specification states over character
positions: pasting the two-byte rune 233 into an empty buffer leaves CursorX = 2
while the line holds one rune. -/
theorem c3_cursor_column_exceeds_line_length :
    (insertText (mkBuffer [[]]) [195, 169]).cursorX = 2 ∧
      (utf8Decode ((insertText (mkBuffer [[]]) [195, 169]).lines.getD 0 [])).length = 1 ∧
      ¬((insertText (mkBuffer [[]]) [195, 169]).cursorX ≤
        (utf8Decode ((insertText (mkBuffer [[]]) [195, 169]).lines.getD 0 [])).length) := by
  decide

end Accela
